import Mathlib

/-!
Verification development for the tavily-real-time-rag backend
(pipeline orchestration and similarity-ranking subsystem).

Each definition below is a shallow embedding of a function or code path of
src/backend; doc comments name the embedded source location.  Machine floats
are modelled over the rationals, with an explicit marker for the IEEE NaN
produced by a zero-denominator division.  Python strings are modelled as
Lean strings or as lists of characters where substring surgery is needed.
-/

namespace RagPipeline

/-! ## Character-list string primitives

Python substring membership (`pat in s`) and single leftmost replacement
(`s.replace(old, new, 1)`) modelled on lists of characters. -/

/-- Python `pat in s`: does `pat` occur as a contiguous substring of `s`?
Scans every suffix of `s` for `pat` as a prefix. -/
def strIn : List Char → List Char → Bool
  | pat, [] => pat.isPrefixOf ([] : List Char)
  | pat, c :: t => pat.isPrefixOf (c :: t) || strIn pat t

/-- Number of start positions of `s` at which `pat` occurs (overlapping
occurrences counted separately). -/
def occCount : List Char → List Char → Nat
  | pat, [] => if pat.isPrefixOf ([] : List Char) then 1 else 0
  | pat, c :: t => (if pat.isPrefixOf (c :: t) then 1 else 0) + occCount pat t

/-- Python `s.replace(old, new, 1)`: replace the leftmost occurrence of
`pat` by `rep`, leave `s` unchanged when `pat` does not occur. -/
def replaceFirst : List Char → List Char → List Char → List Char
  | pat, rep, [] => if pat.isPrefixOf ([] : List Char) then rep else []
  | pat, rep, c :: t =>
      if pat.isPrefixOf (c :: t) then rep ++ (c :: t).drop pat.length
      else c :: replaceFirst pat rep t

/-- The GitHub viewable-path token, "/blob/". -/
def pblob : List Char := ['/', 'b', 'l', 'o', 'b', '/']

/-- The GitHub raw-path token, "/raw/". -/
def praw : List Char := ['/', 'r', 'a', 'w', '/']

/-- extract.py:20-22 blob_to_raw: converts a GitHub blob URL to a raw URL
(first occurrence only; identity when the token is absent). -/
def blob_to_raw (url : String) : String :=
  if strIn pblob url.data then String.mk (replaceFirst pblob praw url.data) else url

/-- extract.py:24-26 raw_to_blob: converts a GitHub raw URL to a blob URL
(first occurrence only; identity when the token is absent). -/
def raw_to_blob (url : String) : String :=
  if strIn praw url.data then String.mk (replaceFirst praw pblob url.data) else url

/-- Split a character list at every '/' (the separators themselves are
dropped; empty pieces are kept and filtered later). -/
def splitSlash : List Char → List (List Char)
  | [] => [[]]
  | c :: t =>
      if c = '/' then [] :: splitSlash t
      else
        match splitSlash t with
        | [] => [[c]]
        | g :: gs => (c :: g) :: gs

/-- The path components PurePosixPath keeps: splitting on '/' discards
empty components and single-dot components. -/
def pathSegments (url : String) : List (List Char) :=
  (splitSlash url.data).filter fun s => s ≠ [] && s ≠ ['.']

/-- extract.py:28-31 filename: the final path segment of the URL
(PurePosixPath(url).name); it counts as a filename only when it contains
a '.' character, otherwise the result is None. -/
def filename (url : String) : Option String :=
  match (pathSegments url).getLast? with
  | none => none
  | some name => if name.contains '.' then some (String.mk name) else none

/-! ## Documents -/

/-- state.py CrawlDoc: a crawled page. -/
structure CrawlDoc where
  url : String
  content : String
deriving DecidableEq, Repr

/-- state.py RawDoc: an extracted reference file. -/
structure RawDoc where
  url : String
  content : String
deriving DecidableEq, Repr

/-! ## Extract-node dedup loop (extract.py:74-91)

The loop walks crawl documents in arrival order, keeps one document per
extracted filename, stores documents that already carry raw content, and
queues blob URLs (converted to raw form) for extraction. -/

/-- extract.py:79-91, the dedup loop of ExtractNode.run.  Walks the input
in order with the set of already-seen filenames; returns the directly
stored raw docs (urls normalised back to blob form) and the queued raw
URLs, each in arrival order. -/
def dedupLoop : List CrawlDoc → List String → List RawDoc × List String
  | [], _ => ([], [])
  | d :: rest, seen =>
    match filename d.url with
    | none => dedupLoop rest seen
    | some f =>
      if f ∈ seen then dedupLoop rest seen
      else
        let r := dedupLoop rest (f :: seen)
        if strIn praw d.url.data then
          ({ url := raw_to_blob d.url, content := d.content } :: r.1, r.2)
        else if strIn pblob d.url.data then
          (r.1, blob_to_raw d.url :: r.2)
        else r

/-- Specification-side companion of the dedup loop: the subsequence of
input documents that survive it (first document per fresh filename that
carries a raw or blob token).  Used to state order preservation and
first-wins; dedupLoop is proved to be its image. -/
def dedupSurvivors : List CrawlDoc → List String → List CrawlDoc
  | [], _ => []
  | d :: rest, seen =>
    match filename d.url with
    | none => dedupSurvivors rest seen
    | some f =>
      if f ∈ seen then dedupSurvivors rest seen
      else if strIn praw d.url.data || strIn pblob d.url.data then
        d :: dedupSurvivors rest (f :: seen)
      else dedupSurvivors rest (f :: seen)

/-! ## Extract batching and partial failure (extract.py:45-61, 96-108) -/

/-- One entry of the provider response's results list. -/
structure ExtractItem where
  url : String
  raw_content : String
deriving DecidableEq, Repr

/-- One entry of the provider response's failed_results list
({url, error}). -/
structure ExtractFailure where
  url : String
  error : String
deriving DecidableEq, Repr

/-- Outcome of one Tavily extract call: either the call raises
(network or quota error) or it returns results plus failed_results. -/
inductive ProviderResp where
  | err (msg : String)
  | ok (results : List ExtractItem) (failed : List ExtractFailure)
deriving DecidableEq, Repr

/-- extract.py:45-61 ExtractNode._extract_sync: one batch call.  A raised
exception is caught and turned into zero documents plus one {url, error}
record per URL of the batch; a successful response keeps the items with
non-empty raw_content (urls converted back to blob form) and passes the
provider's failed_results through. -/
def extractSync (provider : List String → ProviderResp) (urls : List String) :
    List RawDoc × List ExtractFailure :=
  match provider urls with
  | .err e => ([], urls.map fun u => { url := u, error := e })
  | .ok results failed =>
      ((results.filter (fun i => i.raw_content ≠ "")).map
        (fun i => { url := raw_to_blob i.url, content := i.raw_content }), failed)

/-- extract.py:36 BATCH_SIZE. -/
def BATCH_SIZE : Nat := 20

/-- extract.py:96-99: the queued URLs sliced into consecutive batches
todo[i : i+20] for i = 0, 20, 40, ... -/
def chunk20 (l : List String) : List (List String) :=
  (List.range ((l.length + 19) / 20)).map fun i => (l.drop (20 * i)).take 20

/-- extract.py:96-108, the aggregation part of ExtractNode.run: run every
batch through _extract_sync, then append the per-batch successes to the
pre-existing documents in batch order and collect all failure records.
asyncio.gather preserves task order, so the sequential model is exact. -/
def extractRun (pre : List RawDoc) (todo : List String)
    (provider : List String → ProviderResp) : List RawDoc × List ExtractFailure :=
  let results := (chunk20 todo).map (extractSync provider)
  (pre ++ (results.map Prod.fst).flatten, (results.map Prod.snd).flatten)

/-! ## Embedding and cosine similarity (embeder.py; same formula in ranker.py)

Vectors are modelled over the rationals.  The similarity value
dot(a, v) / (norm(a) * norm(v)) is represented exactly: SimScore.ratio
num den2 denotes the real number num / sqrt den2, with den2 the product
of the squared norms; SimScore.nan is the IEEE NaN produced when the
denominator is zero (the code divides unconditionally, and the numerator
is then also zero, so the float result is 0.0/0.0 = NaN). -/

/-- Dot product of two rational vectors, truncating at the shorter one
(numpy would raise on mismatched shapes; the pipeline always produces
equal lengths). -/
def dot : List ℚ → List ℚ → ℚ
  | [], _ => 0
  | _, [] => 0
  | a :: as, b :: bs => a * b + dot as bs

/-- Sum of squares of a vector: the square of np.linalg.norm. -/
def sumSq (l : List ℚ) : ℚ := dot l l

/-- Exact model of the float stored by embeder.py:87 (and ranker.py:75):
ratio num den2 denotes num / sqrt den2; nan is the 0.0/0.0 result of the
unguarded division when a norm is zero. -/
inductive SimScore where
  | nan
  | ratio (num : ℚ) (den2 : ℚ)
deriving DecidableEq, Repr

/-- embeder.py:87: sim = dot(draft_vec, arr) / (norm(draft_vec) * norm(arr)),
computed unconditionally.  The denominator norm(a)*norm(v) is zero exactly
when sumSq a * sumSq v = 0, and the division then yields NaN. -/
def cosineSim (a v : List ℚ) : SimScore :=
  if sumSq a * sumSq v = 0 then SimScore.nan
  else SimScore.ratio (dot a v) (sumSq a * sumSq v)

/-- embeder.py:31 MAX_CHARS, the signature slice length. -/
def EMBED_MAX_CHARS : Nat := 10000

/-- embeder.py:33-35 _signature: the leading character slice
text[:MAX_CHARS] sent to the embedder. -/
def signatureOf (text : String) : String :=
  String.mk (text.data.take EMBED_MAX_CHARS)

/-- A raw doc as mutated by the embeder: state.py RawDoc plus the fields
added in place by EmbederNode.run. -/
structure RawDocE where
  url : String
  content : String
  signature_text : Option String := none
  embedding : Option (List ℚ) := none
  similarity_score : Option SimScore := none
deriving DecidableEq, Repr

/-- state.py InitialCode / the drafter's initial_content payload, plus the
fields the embeder adds in place. -/
structure DraftDoc where
  content : String
  signature_text : Option String := none
  embedding : Option (List ℚ) := none
deriving DecidableEq, Repr

/-- embeder.py:83-90, the zip loop: pair documents with returned vectors
(zip truncates at the shorter list), store each vector, and store the
similarity against the anchor - some (cosineSim anchor v) when a draft
anchor exists, None otherwise. -/
def embedAssign (anchor : Option (List ℚ)) :
    List RawDocE → List (List ℚ) → List RawDocE
  | [], _ => []
  | ds, [] => ds
  | d :: ds, v :: vs =>
      { d with embedding := some v,
               similarity_score :=
                 match anchor with
                 | some a => some (cosineSim a v)
                 | none => none } :: embedAssign anchor ds vs

/-- The slice of pipeline state read and written by the drafter and the
embeder: raw_docs, and the two draft keys.  state.py declares
initial_code; drafter.py writes initial_content. -/
structure EmbedState where
  raw_docs : List RawDocE
  initial_code : Option DraftDoc := none
  initial_content : Option DraftDoc := none
deriving DecidableEq, Repr

/-- drafter.py:63-66: DrafterNode.run returns
{"initial_content": {"content": code, "chunk_ids": None}}, merged into
the state (overwrite). -/
def drafterUpdate (st : EmbedState) (draftText : String) : EmbedState :=
  { st with initial_content := some { content := draftText } }

/-- embeder.py:50-93 EmbederNode.run, with the provider's returned vector
list (one vector per submitted signature, order preserving) taken as an
argument.  The node reads the draft from state["initial_code"]
(embeder.py:52).  When a draft is present its signature is submitted
last and its vector popped off the end; documents are then scored
against it by the zip loop.  When raw_docs is empty and the draft key is
absent the node returns no update. -/
def embederRun (st : EmbedState) (vectors : List (List ℚ)) : EmbedState :=
  if st.raw_docs.isEmpty && st.initial_code.isNone then st
  else
    let docs := st.raw_docs.map fun d =>
      { d with signature_text := some (signatureOf d.content) }
    match st.initial_code with
    | some dr =>
        let draftVec := vectors.getLast?
        { st with
            raw_docs := embedAssign draftVec docs vectors.dropLast,
            initial_code := some { dr with
              signature_text := some (signatureOf dr.content),
              embedding := draftVec } }
    | none =>
        { st with raw_docs := embedAssign none docs vectors }

/-! ## Top-K selection (refiner.py:26-30) -/

/-- A ranked document as the refiner sees it: url, content and the
optional similarity score.  Scores are modelled as rationals. -/
structure RankedDoc where
  url : String
  content : String
  similarity_score : Option ℚ := none
deriving DecidableEq, Repr

/-- The sort key d["similarity_score"] (only ever applied to documents
whose score is present; getD 0 totalises it). -/
def scoreVal (d : RankedDoc) : ℚ := d.similarity_score.getD 0

/-- The descending comparison used by scored.sort(key=..., reverse=True):
a precedes b when b's key is at most a's key. -/
def descR (a b : RankedDoc) : Prop := scoreVal b ≤ scoreVal a

instance : DecidableRel descR :=
  fun a b => inferInstanceAs (Decidable (scoreVal b ≤ scoreVal a))

instance : IsTotal RankedDoc descR :=
  ⟨fun a b => (le_total (scoreVal b) (scoreVal a)).imp id id⟩

instance : IsTrans RankedDoc descR :=
  ⟨fun _ _ _ h1 h2 => le_trans h2 h1⟩

/-- refiner.py:26-30 top_k_best: filter to documents with a non-null
score, stable-sort them descending by score (Python's list.sort is
stable, with reverse=True inverting the comparison but not the order of
ties; insertion sort with the weak descending relation has exactly that
behaviour, and a stable sort's output is unique), then the first k; when
no document has a score, the first k input documents. -/
def top_k_best (docs : List RankedDoc) (k : Nat) : List RankedDoc :=
  let sorted :=
    List.insertionSort descR (docs.filter fun d => d.similarity_score.isSome)
  if sorted.isEmpty then docs.take k else sorted.take k

/-- refiner.py:22 TOP_K_example. -/
def TOP_K_example : Nat := 3

/-! ## Responder (responder.py) -/

/-- A conversation message (langchain AIMessage / HumanMessage). -/
inductive Msg where
  | ai (content : String)
  | human (content : String)
deriving DecidableEq, Repr

/-- state.py SearchDoc. -/
structure SearchDoc where
  title : Option String := none
  url : Option String := none
  content : Option String := none
  score : Option ℚ := none
deriving DecidableEq, Repr

/-- The final_content payload built by the refiner. -/
structure FinalContent where
  content : String
  sources : List String := []
  reflection : Option String := none
deriving DecidableEq, Repr

/-- The pipeline state dict as the responder sees it: the conversation
buffer, the status flag, and the cycle-scoped keys (absent = none). -/
structure PState where
  messages : List Msg
  status : String
  solution_outline : Option String := none
  search_queries : Option (List String) := none
  search_docs : Option (List SearchDoc) := none
  crawl_urls : Option (List String) := none
  crawl_docs : Option (List CrawlDoc) := none
  raw_docs : Option (List RankedDoc) := none
  initial_content : Option DraftDoc := none
  final_content : Option FinalContent := none
  follow_up_response : Option String := none
deriving DecidableEq, Repr

/-- responder.py:89-104 _clean_state: pops the eight cycle-scoped keys
from the state dict (messages, status and follow_up_response are not
touched). -/
def cleanState (st : PState) : PState :=
  { st with
      solution_outline := none
      search_queries := none
      search_docs := none
      crawl_urls := none
      crawl_docs := none
      raw_docs := none
      initial_content := none
      final_content := none }

/-- The validated shape of the follow-up reply (responder.py _Out):
status is the closed enum {continue, done}; problem and goodbye are
optional strings. -/
inductive ROutStatus where
  | cont
  | done
deriving DecidableEq, Repr

/-- responder.py:27-30 _Out. -/
structure ROut where
  status : ROutStatus
  problem : Option String := none
  goodbye : Option String := none
deriving DecidableEq, Repr

/-- Outcome of _Out.model_validate_json on the reply text: a
JSONDecodeError/ValidationError, or a validated payload. -/
inductive ParseResult where
  | fail (err : String)
  | ok (o : ROut)
deriving DecidableEq, Repr

/-- responder.py:112 default goodbye. -/
def defaultGoodbye : String := "Glad I could help — good luck!"

/-- The partial state update returned by ResponderNode.run: the status
flag, messages to append, and the raw follow-up reply when present. -/
structure RUpdate where
  status : String
  messages : List Msg
  follow_up_response : Option String := none
deriving DecidableEq, Repr

/-- responder.py:115-180 ResponderNode.run as a function of the state,
the user input (already stripped: responder.py:121 reads
input(...).strip()), the raw LLM reply text and its parse outcome.
Returns none exactly when the code raises (the only raising path: a
validated continue reply whose problem field is missing, where
payload.problem.strip() raises AttributeError at responder.py:171); every
other path cleans the cycle keys in place and returns an update. -/
def respondRun (st : PState) (userInput rawReply : String)
    (parsed : ParseResult) : Option (PState × RUpdate) :=
  if userInput = "" then
    some (cleanState st,
      { status := "done", messages := [Msg.ai defaultGoodbye] })
  else
    match parsed with
    | .fail err =>
        some (cleanState st,
          { status := "done",
            messages := [Msg.ai ("[ResponderNode error] " ++ err)] })
    | .ok o =>
        match o.status with
        | .cont =>
            match o.problem with
            | none => none
            | some p =>
                some (cleanState st,
                  { status := "continue",
                    messages := [Msg.ai rawReply, Msg.human p.trim],
                    follow_up_response := some rawReply })
        | .done =>
            let goodbye :=
              match o.goodbye with
              | some g => if g = "" then defaultGoodbye else g.trim
              | none => defaultGoodbye
            some (cleanState st,
              { status := "done",
                messages := [Msg.ai rawReply, Msg.ai goodbye],
                follow_up_response := some rawReply })

/-- Merge of a node's returned update into the state, following the
channel declarations of state.py State: messages is an add_messages
channel (append), status overwrites; the follow_up_response key has no
channel in the State schema and is dropped. -/
def applyUpdate (st : PState) (u : RUpdate) : PState :=
  { st with status := u.status, messages := st.messages ++ u.messages }

/-- The state after the respond stage: the in-place cleaned dict with the
returned update merged in; none when the stage raised. -/
def stateAfterRespond (st : PState) (userInput rawReply : String)
    (parsed : ParseResult) : Option PState :=
  (respondRun st userInput rawReply parsed).map fun r => applyUpdate r.1 r.2

/-! ## Orchestrator graph (main.py:38-58, 73) -/

/-- main.py:40-47: the nodes added to the StateGraph. -/
def graphNodes : List String :=
  ["planner", "search", "drafter", "filter", "crawl", "extract", "embeder", "refiner"]

/-- main.py:49-57: the edges of the compiled graph ("__end__" is
LangGraph's END sentinel; "planner" is the entry point). -/
def graphEdges : List (String × String) :=
  [("planner", "search"), ("planner", "drafter"), ("search", "filter"),
   ("filter", "crawl"), ("crawl", "extract"), ("extract", "embeder"),
   ("embeder", "refiner"), ("refiner", "__end__")]

/-- main.py:49 set_entry_point. -/
def entryPoint : String := "planner"

/-- main.py never calls add_conditional_edges: the sources of conditional
edges form the empty list. -/
def conditionalEdgeSources : List String := []

/-- main.py:73: config={"recursion_limit": 10}. -/
def recursionLimit : Nat := 10

/-- A topological index for the pipeline stages ("__end__" last,
drafter sharing the slot after planner on its own branch). -/
def nodeIdx (n : String) : Nat :=
  if n = "planner" then 0
  else if n = "search" then 1
  else if n = "drafter" then 1
  else if n = "filter" then 2
  else if n = "crawl" then 3
  else if n = "extract" then 4
  else if n = "embeder" then 5
  else if n = "refiner" then 6
  else 7

/-! ## Concrete inputs used by the witnesses -/

/-- The spec's ranking-stability example, scores [0.9, None, 0.5, 0.9]
scaled by ten (order and ties unchanged) to keep the kernel arithmetic
on integral rationals. -/
def c2ExDocs : List RankedDoc :=
  [{ url := "u1", content := "c1", similarity_score := some 9 },
   { url := "u2", content := "c2", similarity_score := none },
   { url := "u3", content := "c3", similarity_score := some 5 },
   { url := "u4", content := "c4", similarity_score := some 9 }]

/-- A crawl batch exercising the dedup loop: a raw URL, a blob URL
colliding on the same filename, a fresh blob URL, and an extensionless
URL. -/
def c4ExDocs : List CrawlDoc :=
  [{ url := "https://github.com/a/r/raw/main/util.py", content := "A" },
   { url := "https://github.com/b/r/blob/main/util.py", content := "B" },
   { url := "https://github.com/a/r/blob/main/app.py", content := "C" },
   { url := "https://github.com/a/r/tree/main", content := "D" }]

/-- A URL containing the replaceable token exactly once. -/
def c5ExUrl : String := "https://github.com/u/r/blob/main/a.py"

/-- Twenty-five queued URLs, as in the spec's batch-partial-failure
example. -/
def c6Urls : List String := (List.range 25).map fun i => "u" ++ toString i

/-- The second batch (of five) of c6Urls. -/
def c6Batch2 : List String := (List.range 5).map fun i => "u" ++ toString (20 + i)

/-- A provider that raises exactly on the second batch and succeeds on
every other call. -/
def c6Provider : List String → ProviderResp := fun urls =>
  if urls = c6Batch2 then ProviderResp.err "quota exceeded"
  else ProviderResp.ok (urls.map fun u => { url := u, raw_content := "body" }) []

/-- Pipeline state before the drafter runs: one extracted document,
neither draft key set. -/
def c3ExState : EmbedState :=
  { raw_docs := [{ url := "https://github.com/x/y/blob/main/a.py", content := "print(1)" }] }

/-- A mid-cycle state handed to the responder: non-empty conversation and
populated cycle keys. -/
def c8ExSt : PState :=
  { messages := [Msg.human "task"], status := "refined",
    solution_outline := some "outline",
    search_queries := some ["q1"],
    search_docs := some [{}],
    crawl_urls := some ["https://github.com/a/r"],
    crawl_docs := some [{ url := "u", content := "c" }],
    raw_docs := some [{ url := "u", content := "c" }],
    initial_content := some { content := "draft" },
    final_content := some { content := "final" } }

/-- The state after the respond stage on c8ExSt with an invalid reply. -/
def c8ExRes : PState :=
  (stateAfterRespond c8ExSt "more please" "not json" (ParseResult.fail "bad")).getD
    { messages := [], status := "" }

/-! ## Theorems -/

/-! ### C9: loop control after the respond stage -/

/-- C9 counterexample: the claim asserts that after the respond stage the
orchestrator inspects run_status and either terminates or re-enters the
plan stage.  In the compiled graph of main.py there is no respond node at
all, no edge (conditional or not) ever targets the entry point, and the
refine stage goes straight to END — so the pipeline can never re-enter
plan. -/
theorem c9_counterexample :
    "responder" ∉ graphNodes ∧
    (∀ e ∈ graphEdges, e.2 ≠ entryPoint) ∧
    conditionalEdgeSources = [] ∧
    ("refiner", "__end__") ∈ graphEdges := by decide

/-- C9 amended: the compiled graph is a linear pipeline with a fan-out at
plan: it contains no respond node and no conditional edge, every edge
goes strictly forward in the stage order (so the graph is acyclic and
run_status is never inspected for loop control), the refine stage is
followed by END, and the configured iteration ceiling is a recursion
limit of 10. -/
theorem c9_amended :
    "responder" ∉ graphNodes ∧
    conditionalEdgeSources = [] ∧
    ("refiner", "__end__") ∈ graphEdges ∧
    recursionLimit = 10 ∧
    (∀ e ∈ graphEdges, nodeIdx e.1 < nodeIdx e.2) := by decide

/-- C9 amended, witness: the theorem instantiated at the terminal edge. -/
theorem c9_amended_witness : nodeIdx "refiner" < nodeIdx "__end__" :=
  c9_amended.2.2.2.2 ("refiner", "__end__") (by decide)

/-! ### C7: validation failure in the respond stage -/

/-- C7: when the follow-up reply fails JSON validation, ResponderNode.run
does not raise: it cleans the cycle keys and returns a terminal done
status whose message surfaces the error to the user. -/
theorem c7_validation_failure_degrades (st : PState) (ui raw err : String)
    (h : ui ≠ "") :
    respondRun st ui raw (ParseResult.fail err) =
      some (cleanState st,
        { status := "done",
          messages := [Msg.ai ("[ResponderNode error] " ++ err)] }) := by
  simp [respondRun, h]

/-- C7 witness: the theorem at a concrete state and reply. -/
theorem c7_witness :
    respondRun c8ExSt "more please" "not json" (ParseResult.fail "bad") =
      some (cleanState c8ExSt,
        { status := "done",
          messages := [Msg.ai ("[ResponderNode error] " ++ "bad")] }) :=
  c7_validation_failure_degrades c8ExSt "more please" "not json" "bad" (by decide)

/-! ### C8: frame effect of the respond stage -/

/-- C8: on every non-raising outcome of the respond stage the eight
cycle-scoped keys are removed from the state, the conversation buffer is
only appended to (the previous messages stay as a prefix), and the status
field is present (done or continue). -/
theorem c8_cycle_state_cleared (st : PState) (ui raw : String)
    (parsed : ParseResult) (res : PState)
    (h : stateAfterRespond st ui raw parsed = some res) :
    (res.solution_outline = none ∧ res.search_queries = none ∧
     res.search_docs = none ∧ res.crawl_urls = none ∧
     res.crawl_docs = none ∧ res.raw_docs = none ∧
     res.initial_content = none ∧ res.final_content = none) ∧
    (res.messages.take st.messages.length = st.messages ∧
     st.messages.length < res.messages.length) ∧
    (res.status = "done" ∨ res.status = "continue") := by
  have key : ∀ (s : String) (ms : List Msg) (f : Option String), ms ≠ [] →
      applyUpdate (cleanState st)
          { status := s, messages := ms, follow_up_response := f } = res →
      (res.solution_outline = none ∧ res.search_queries = none ∧
       res.search_docs = none ∧ res.crawl_urls = none ∧
       res.crawl_docs = none ∧ res.raw_docs = none ∧
       res.initial_content = none ∧ res.final_content = none) ∧
      (res.messages.take st.messages.length = st.messages ∧
       st.messages.length < res.messages.length) ∧
      res.status = s := by
    intro s ms f hms hr
    subst hr
    refine ⟨by simp [applyUpdate, cleanState],
      ⟨by simp [applyUpdate, cleanState, List.take_left], ?_⟩, rfl⟩
    simp only [applyUpdate, cleanState, List.length_append]
    have : 0 < ms.length := List.length_pos.mpr hms
    omega
  rw [stateAfterRespond, Option.map_eq_some'] at h
  obtain ⟨⟨st1, u⟩, hrun, hres⟩ := h
  simp only [respondRun] at hrun
  split at hrun
  · obtain ⟨h1, h2⟩ := Prod.mk.inj (Option.some.inj hrun)
    subst h1; subst h2
    have := key _ _ _ (by simp) hres
    exact ⟨this.1, this.2.1, Or.inl this.2.2⟩
  · cases parsed with
    | fail err =>
        obtain ⟨h1, h2⟩ := Prod.mk.inj (Option.some.inj hrun)
        subst h1; subst h2
        have := key _ _ _ (by simp) hres
        exact ⟨this.1, this.2.1, Or.inl this.2.2⟩
    | ok o =>
        obtain ⟨ostatus, oproblem, ogoodbye⟩ := o
        cases ostatus with
        | cont =>
            cases oproblem with
            | none => exact absurd hrun (by simp)
            | some p =>
                obtain ⟨h1, h2⟩ := Prod.mk.inj (Option.some.inj hrun)
                subst h1; subst h2
                have := key _ _ _ (by simp) hres
                exact ⟨this.1, this.2.1, Or.inr this.2.2⟩
        | done =>
            obtain ⟨h1, h2⟩ := Prod.mk.inj (Option.some.inj hrun)
            subst h1; subst h2
            have := key _ _ _ (by simp) hres
            exact ⟨this.1, this.2.1, Or.inl this.2.2⟩

/-- C8 witness: the theorem at a concrete populated state whose follow-up
reply fails validation. -/
theorem c8_witness :
    stateAfterRespond c8ExSt "more please" "not json" (ParseResult.fail "bad") =
      some c8ExRes ∧
    c8ExRes.raw_docs = none ∧ c8ExRes.final_content = none ∧
    c8ExRes.messages.take 1 = [Msg.human "task"] ∧ c8ExRes.status = "done" := by
  have h := c8_cycle_state_cleared c8ExSt "more please" "not json"
    (ParseResult.fail "bad") c8ExRes (by decide)
  exact ⟨by decide, h.1.2.2.2.2.2.1, h.1.2.2.2.2.2.2.2,
    h.2.1.1, h.2.2.resolve_right (by decide)⟩

/-! ### C2 and C10: the top-k selector -/

/-- Stability of the refiner's sort: for every score value q, the
equal-score documents come out of the stable descending sort in exactly
their input order (a stable sort is uniquely determined by this together
with sortedness and permutation). -/
theorem filter_key_insertionSort (l : List RankedDoc) (q : ℚ) :
    (List.insertionSort descR l).filter
        (fun d => d.similarity_score == some q) =
      l.filter fun d => d.similarity_score == some q := by
  have hpair : (l.filter fun d => d.similarity_score == some q).Pairwise descR := by
    apply List.pairwise_of_forall_mem_list
    intro a ha b hb
    have ha' : a.similarity_score = some q := by
      simpa using List.of_mem_filter ha
    have hb' : b.similarity_score = some q := by
      simpa using List.of_mem_filter hb
    show scoreVal b ≤ scoreVal a
    simp [scoreVal, ha', hb']
  have hsub : List.Sublist (l.filter fun d => d.similarity_score == some q)
      (List.insertionSort descR l) :=
    List.sublist_insertionSort hpair (List.filter_sublist l)
  have hsub2 := hsub.filter fun d => d.similarity_score == some q
  rw [List.filter_filter] at hsub2
  have hself : (l.filter fun d => (d.similarity_score == some q) &&
      (d.similarity_score == some q)) =
      l.filter fun d => d.similarity_score == some q := by
    simp
  rw [hself] at hsub2
  have hlen : ((List.insertionSort descR l).filter
      (fun d => d.similarity_score == some q)).length =
      (l.filter fun d => d.similarity_score == some q).length :=
    ((List.perm_insertionSort descR l).filter _).length_eq
  exact (hsub2.eq_of_length hlen.symm).symm

/-- C2: the selector filters to documents with a present score,
stable-sorts them descending by score and takes the first k; with no
scored document it returns the first k inputs unchanged; the result is
descending (so a scoreless document never precedes a scored one), and
ties keep their original input order. -/
theorem c2_top_k_selector (docs : List RankedDoc) (k : Nat) :
    (docs.filter (fun d => d.similarity_score.isSome) = [] →
      top_k_best docs k = docs.take k) ∧
    (docs.filter (fun d => d.similarity_score.isSome) ≠ [] →
      top_k_best docs k =
        (List.insertionSort descR
          (docs.filter fun d => d.similarity_score.isSome)).take k ∧
      ∀ d ∈ top_k_best docs k, d.similarity_score.isSome) ∧
    (top_k_best docs k).Pairwise descR ∧
    ∀ q : ℚ,
      (List.insertionSort descR
          (docs.filter fun d => d.similarity_score.isSome)).filter
        (fun d => d.similarity_score == some q) =
      docs.filter fun d => d.similarity_score == some q := by
  refine ⟨fun hempty => ?_, fun hne => ?_, ?_, fun q => ?_⟩
  · simp [top_k_best, hempty]
  · have hlen : (List.insertionSort descR
        (docs.filter fun d => d.similarity_score.isSome)).length ≠ 0 := by
      rw [List.length_insertionSort]
      simpa [List.length_eq_zero] using hne
    have hnotEmpty : (List.insertionSort descR
        (docs.filter fun d => d.similarity_score.isSome)).isEmpty = false := by
      cases hs : List.insertionSort descR
          (docs.filter fun d => d.similarity_score.isSome) with
      | nil => exact absurd (by simp [hs]) hlen
      | cons a t => simp [List.isEmpty]
    have heq : top_k_best docs k =
        (List.insertionSort descR
          (docs.filter fun d => d.similarity_score.isSome)).take k := by
      simp [top_k_best, hnotEmpty]
    refine ⟨heq, fun d hd => ?_⟩
    rw [heq] at hd
    have hd2 : d ∈ List.insertionSort descR
        (docs.filter fun d => d.similarity_score.isSome) :=
      List.mem_of_mem_take hd
    have hd3 : d ∈ docs.filter fun d => d.similarity_score.isSome :=
      (List.mem_insertionSort descR).mp hd2
    exact (List.mem_filter.mp hd3).2
  · by_cases hempty : docs.filter (fun d => d.similarity_score.isSome) = []
    · have hres : top_k_best docs k = docs.take k := by simp [top_k_best, hempty]
      rw [hres]
      apply List.pairwise_of_forall_mem_list
      intro a ha b hb
      have hnone : ∀ d ∈ docs, d.similarity_score = none := by
        intro d hd
        have := (List.filter_eq_nil_iff.mp hempty) d hd
        exact Option.not_isSome_iff_eq_none.mp this
      have ha' := hnone a (List.mem_of_mem_take ha)
      have hb' := hnone b (List.mem_of_mem_take hb)
      show scoreVal b ≤ scoreVal a
      simp [scoreVal, ha', hb']
    · have hlen : (List.insertionSort descR
          (docs.filter fun d => d.similarity_score.isSome)).length ≠ 0 := by
        rw [List.length_insertionSort]
        simpa [List.length_eq_zero] using hempty
      have hnotEmpty : (List.insertionSort descR
          (docs.filter fun d => d.similarity_score.isSome)).isEmpty = false := by
        cases hs : List.insertionSort descR
            (docs.filter fun d => d.similarity_score.isSome) with
        | nil => exact absurd (by simp [hs]) hlen
        | cons a t => simp [List.isEmpty]
      have hres : top_k_best docs k =
          (List.insertionSort descR
            (docs.filter fun d => d.similarity_score.isSome)).take k := by
        simp [top_k_best, hnotEmpty]
      rw [hres]
      exact (List.sorted_insertionSort descR _).sublist (List.take_sublist k _)
  · rw [filter_key_insertionSort, List.filter_filter]
    apply List.filter_congr
    intro d _
    cases h : d.similarity_score <;> simp

/-- C2 witness: the spec's example — scores [0.9, None, 0.5, 0.9],
top-2 selects the two 0.9 documents in input order. -/
theorem c2_witness :
    top_k_best c2ExDocs 2 =
      [{ url := "u1", content := "c1", similarity_score := some 9 },
       { url := "u4", content := "c4", similarity_score := some 9 }] ∧
    ∀ d ∈ top_k_best c2ExDocs 2, d.similarity_score.isSome := by
  refine ⟨by decide, fun d hd => ?_⟩
  exact ((c2_top_k_selector c2ExDocs 2).2.1 (by decide)).2 d hd

/-- C10: when at least one document is scored, the selector returns only
scored documents — never padding with unscored ones — so its length is
min k (number of scored documents), which can be smaller than k even
when unscored documents remain. -/
theorem c10_scored_only_no_padding (docs : List RankedDoc) (k : Nat)
    (h : ∃ d ∈ docs, d.similarity_score.isSome) :
    (∀ d ∈ top_k_best docs k, d.similarity_score.isSome) ∧
    (top_k_best docs k).length =
      min k (docs.filter fun d => d.similarity_score.isSome).length := by
  obtain ⟨d0, hd0, hs0⟩ := h
  have hne : docs.filter (fun d => d.similarity_score.isSome) ≠ [] :=
    List.ne_nil_of_mem (List.mem_filter.mpr ⟨hd0, hs0⟩)
  have hlen : (List.insertionSort descR
      (docs.filter fun d => d.similarity_score.isSome)).length ≠ 0 := by
    rw [List.length_insertionSort]
    simpa [List.length_eq_zero] using hne
  have hnotEmpty : (List.insertionSort descR
      (docs.filter fun d => d.similarity_score.isSome)).isEmpty = false := by
    cases hs : List.insertionSort descR
        (docs.filter fun d => d.similarity_score.isSome) with
    | nil => exact absurd (by simp [hs]) hlen
    | cons a t => simp [List.isEmpty]
  have hres : top_k_best docs k =
      (List.insertionSort descR
        (docs.filter fun d => d.similarity_score.isSome)).take k := by
    simp [top_k_best, hnotEmpty]
  constructor
  · intro d hd
    rw [hres] at hd
    have hd3 : d ∈ docs.filter fun d => d.similarity_score.isSome :=
      (List.mem_insertionSort descR).mp (List.mem_of_mem_take hd)
    exact (List.mem_filter.mp hd3).2
  · rw [hres, List.length_take, List.length_insertionSort]

/-- C10 witness: three of the four example documents are scored, so
top-2 has length min 2 3 = 2 and every selected document is scored. -/
theorem c10_witness :
    (top_k_best c2ExDocs 2).length = 2 ∧
    ∀ d ∈ top_k_best c2ExDocs 2, d.similarity_score.isSome := by
  have h := c10_scored_only_no_padding c2ExDocs 2 (by decide)
  exact ⟨h.2.trans (by decide), h.1⟩

/-! ### C4: filename dedup in the extract stage -/

/-- The direct-documents output of the dedup loop is the image of the
surviving subsequence restricted to raw URLs. -/
theorem dedupLoop_fst (docs : List CrawlDoc) : ∀ seen,
    (dedupLoop docs seen).1 = (dedupSurvivors docs seen).filterMap fun d =>
      if strIn praw d.url.data then
        some { url := raw_to_blob d.url, content := d.content } else none := by
  induction docs with
  | nil => intro seen; simp [dedupLoop, dedupSurvivors]
  | cons d rest ih =>
      intro seen
      cases hf : filename d.url with
      | none => simp [dedupLoop, dedupSurvivors, hf, ih]
      | some f =>
          by_cases hseen : f ∈ seen
          · simp [dedupLoop, dedupSurvivors, hf, hseen, ih]
          · by_cases hraw : strIn praw d.url.data
            · simp [dedupLoop, dedupSurvivors, hf, hseen, hraw, ih]
            · by_cases hblob : strIn pblob d.url.data
              · simp [dedupLoop, dedupSurvivors, hf, hseen, hraw, hblob, ih]
              · simp [dedupLoop, dedupSurvivors, hf, hseen, hraw, hblob, ih]

/-- The queued-URLs output of the dedup loop is the image of the
surviving subsequence restricted to non-raw (blob) URLs. -/
theorem dedupLoop_snd (docs : List CrawlDoc) : ∀ seen,
    (dedupLoop docs seen).2 = (dedupSurvivors docs seen).filterMap fun d =>
      if strIn praw d.url.data then none else some (blob_to_raw d.url) := by
  induction docs with
  | nil => intro seen; simp [dedupLoop, dedupSurvivors]
  | cons d rest ih =>
      intro seen
      cases hf : filename d.url with
      | none => simp [dedupLoop, dedupSurvivors, hf, ih]
      | some f =>
          by_cases hseen : f ∈ seen
          · simp [dedupLoop, dedupSurvivors, hf, hseen, ih]
          · by_cases hraw : strIn praw d.url.data
            · simp [dedupLoop, dedupSurvivors, hf, hseen, hraw, ih]
            · by_cases hblob : strIn pblob d.url.data
              · simp [dedupLoop, dedupSurvivors, hf, hseen, hraw, hblob, ih]
              · simp [dedupLoop, dedupSurvivors, hf, hseen, hraw, hblob, ih]

/-- The survivors form a subsequence of the input: relative order is
preserved. -/
theorem dedupSurvivors_sublist (docs : List CrawlDoc) : ∀ seen,
    List.Sublist (dedupSurvivors docs seen) docs := by
  induction docs with
  | nil => intro seen; simp [dedupSurvivors]
  | cons d rest ih =>
      intro seen
      cases hf : filename d.url with
      | none => simpa [dedupSurvivors, hf] using (ih seen).cons d
      | some f =>
          by_cases hseen : f ∈ seen
          · simpa [dedupSurvivors, hf, hseen] using (ih seen).cons d
          · by_cases hkeep : strIn praw d.url.data || strIn pblob d.url.data
            · simpa [dedupSurvivors, hf, hseen, hkeep] using
                (ih (f :: seen)).cons₂ d
            · simpa [dedupSurvivors, hf, hseen, hkeep] using
                (ih (f :: seen)).cons d

/-- Every survivor has an extracted filename, and it is fresh relative to
the incoming seen set. -/
theorem dedupSurvivors_filename (docs : List CrawlDoc) : ∀ seen,
    ∀ d ∈ dedupSurvivors docs seen,
      ∃ f, filename d.url = some f ∧ f ∉ seen := by
  induction docs with
  | nil => intro seen d hd; simp [dedupSurvivors] at hd
  | cons e rest ih =>
      intro seen d hd
      cases hf : filename e.url with
      | none =>
          rw [dedupSurvivors, hf] at hd
          exact ih seen d hd
      | some f =>
          by_cases hseen : f ∈ seen
          · rw [dedupSurvivors, hf] at hd
            simp only [hseen, if_true] at hd
            exact ih seen d hd
          · by_cases hkeep : strIn praw e.url.data || strIn pblob e.url.data
            · rw [dedupSurvivors, hf] at hd
              simp only [hseen, hkeep, if_false, if_true] at hd
              rcases List.mem_cons.mp hd with rfl | hd'
              · exact ⟨f, hf, hseen⟩
              · obtain ⟨g, hg, hgs⟩ := ih (f :: seen) d hd'
                exact ⟨g, hg, fun hmem => hgs (List.mem_cons_of_mem f hmem)⟩
            · rw [dedupSurvivors, hf] at hd
              simp only [hseen, hkeep, if_false] at hd
              obtain ⟨g, hg, hgs⟩ := ih (f :: seen) d hd
              exact ⟨g, hg, fun hmem => hgs (List.mem_cons_of_mem f hmem)⟩

/-- At most one survivor per filename: the survivor filenames are
pairwise distinct. -/
theorem dedupSurvivors_pairwise (docs : List CrawlDoc) : ∀ seen,
    (dedupSurvivors docs seen).Pairwise
      fun a b => filename a.url ≠ filename b.url := by
  induction docs with
  | nil => intro seen; simp [dedupSurvivors]
  | cons e rest ih =>
      intro seen
      cases hf : filename e.url with
      | none => rw [dedupSurvivors, hf]; exact ih seen
      | some f =>
          by_cases hseen : f ∈ seen
          · rw [dedupSurvivors, hf]; simp only [hseen, if_true]; exact ih seen
          · by_cases hkeep : strIn praw e.url.data || strIn pblob e.url.data
            · rw [dedupSurvivors, hf]
              simp only [hseen, hkeep, if_false, if_true]
              refine List.Pairwise.cons ?_ (ih (f :: seen))
              intro b hb
              obtain ⟨g, hg, hgs⟩ := dedupSurvivors_filename rest (f :: seen) b hb
              rw [hf, hg]
              intro hfg
              have hfg' : f = g := Option.some.inj hfg
              exact hgs (by rw [← hfg']; exact List.mem_cons_self f seen)
            · rw [dedupSurvivors, hf]
              simp only [hseen, hkeep, if_false]
              exact ih (f :: seen)

/-- First-wins: every survivor is the first input document carrying its
filename. -/
theorem dedupSurvivors_first (docs : List CrawlDoc) : ∀ seen,
    ∀ d ∈ dedupSurvivors docs seen, ∀ f, filename d.url = some f →
      docs.find? (fun e => filename e.url == some f) = some d := by
  induction docs with
  | nil => intro seen d hd; simp [dedupSurvivors] at hd
  | cons e rest ih =>
      intro seen d hd f hdf
      cases hf : filename e.url with
      | none =>
          rw [dedupSurvivors, hf] at hd
          rw [List.find?_cons_of_neg _ (by simp [hf])]
          exact ih seen d hd f hdf
      | some f0 =>
          by_cases hseen : f0 ∈ seen
          · rw [dedupSurvivors, hf] at hd
            simp only [hseen, if_true] at hd
            obtain ⟨g, hg, hgs⟩ := dedupSurvivors_filename rest seen d hd
            have hfg : f = g := by rw [hdf] at hg; exact Option.some.inj hg
            have hne : f ≠ f0 := by
              intro hc
              exact hgs (by rw [← hfg, hc]; exact hseen)
            rw [List.find?_cons_of_neg _ (by simp [hf]; exact fun hc => hne hc.symm)]
            exact ih seen d hd f hdf
          · by_cases hkeep : strIn praw e.url.data || strIn pblob e.url.data
            · rw [dedupSurvivors, hf] at hd
              simp only [hseen, hkeep, if_false, if_true] at hd
              rcases List.mem_cons.mp hd with rfl | hd'
              · have : f = f0 := by rw [hdf] at hf; exact Option.some.inj hf
                subst this
                rw [List.find?_cons_of_pos _ (by simp [hf])]
              · obtain ⟨g, hg, hgs⟩ := dedupSurvivors_filename rest (f0 :: seen) d hd'
                have hfg : f = g := by rw [hdf] at hg; exact Option.some.inj hg
                have hne : f ≠ f0 := by
                  intro hc
                  exact hgs (by rw [← hfg, hc]; exact List.mem_cons_self f0 seen)
                rw [List.find?_cons_of_neg _ (by simp [hf]; exact fun hc => hne hc.symm)]
                exact ih (f0 :: seen) d hd' f hdf
            · rw [dedupSurvivors, hf] at hd
              simp only [hseen, hkeep, if_false] at hd
              obtain ⟨g, hg, hgs⟩ := dedupSurvivors_filename rest (f0 :: seen) d hd
              have hfg : f = g := by rw [hdf] at hg; exact Option.some.inj hg
              have hne : f ≠ f0 := by
                intro hc
                exact hgs (by rw [← hfg, hc]; exact List.mem_cons_self f0 seen)
              rw [List.find?_cons_of_neg _ (by simp [hf]; exact fun hc => hne hc.symm)]
              exact ih (f0 :: seen) d hd f hdf

/-- C4: the dedup step keeps at most one document per distinct extracted
filename (pairwise-distinct survivor filenames), each kept document is
the first arrival with its filename, the survivors keep their input
order (subsequence), the loop's two outputs are exactly the survivor
images, and a URL with no '.' in its final segment is skipped outright
and contributes nothing. -/
theorem c4_dedup (docs : List CrawlDoc) :
    ((dedupLoop docs []).1 = (dedupSurvivors docs []).filterMap fun d =>
      if strIn praw d.url.data then
        some { url := raw_to_blob d.url, content := d.content } else none) ∧
    ((dedupLoop docs []).2 = (dedupSurvivors docs []).filterMap fun d =>
      if strIn praw d.url.data then none else some (blob_to_raw d.url)) ∧
    List.Sublist (dedupSurvivors docs []) docs ∧
    (dedupSurvivors docs []).Pairwise
      (fun a b => filename a.url ≠ filename b.url) ∧
    (∀ d ∈ dedupSurvivors docs [], ∀ f, filename d.url = some f →
      docs.find? (fun e => filename e.url == some f) = some d) ∧
    (∀ (d : CrawlDoc) (rest : List CrawlDoc) (seen : List String),
      filename d.url = none →
        dedupLoop (d :: rest) seen = dedupLoop rest seen ∧
        dedupSurvivors (d :: rest) seen = dedupSurvivors rest seen) :=
  ⟨dedupLoop_fst docs [], dedupLoop_snd docs [],
   dedupSurvivors_sublist docs [], dedupSurvivors_pairwise docs [],
   dedupSurvivors_first docs [],
   fun d rest seen hf => ⟨by rw [dedupLoop, hf], by rw [dedupSurvivors, hf]⟩⟩

/-- C4 witness: a raw URL, a blob URL colliding on the same filename, a
fresh blob URL and an extensionless URL.  The loop stores the first
util.py (normalised to the blob form), queues app.py (converted to the
raw form), drops the colliding and extensionless entries, and the kept
util.py is the first arrival with that filename. -/
theorem c4_witness :
    dedupLoop c4ExDocs [] =
      ([{ url := "https://github.com/a/r/blob/main/util.py", content := "A" }],
       ["https://github.com/a/r/raw/main/app.py"]) ∧
    c4ExDocs.find? (fun e => filename e.url == some "util.py") =
      some { url := "https://github.com/a/r/raw/main/util.py", content := "A" } := by
  refine ⟨by decide, ?_⟩
  exact (c4_dedup c4ExDocs).2.2.2.2.1
    { url := "https://github.com/a/r/raw/main/util.py", content := "A" }
    (by decide) "util.py" (by decide)

/-! ### C6: extract batching and partial-failure isolation -/

/-- Flattening n twenty-slices of a list that fits in them reassembles
the list (slices beyond the end are empty). -/
theorem chunkAux_flatten :
    ∀ (n : Nat) (l : List String), l.length ≤ 20 * n →
      ((List.range n).map fun i => (l.drop (20 * i)).take 20).flatten = l := by
  intro n
  induction n with
  | zero =>
      intro l hl
      have : l = [] := List.eq_nil_of_length_eq_zero (by omega)
      simp [this]
  | succ n ih =>
      intro l hl
      rw [List.range_succ_eq_map]
      simp only [List.map_cons, List.map_map, List.flatten_cons]
      have hfun : ((fun i => (l.drop (20 * i)).take 20) ∘ Nat.succ) =
          fun i => ((l.drop 20).drop (20 * i)).take 20 := by
        funext i
        simp only [Function.comp_apply, List.drop_drop]
        congr 2
        omega
      rw [hfun, ih (l.drop 20) (by simp; omega)]
      simp

/-- The batches reassemble the queue in order. -/
theorem chunk20_flatten (l : List String) : (chunk20 l).flatten = l :=
  chunkAux_flatten ((l.length + 19) / 20) l (by omega)

/-- Every batch holds at most twenty URLs. -/
theorem chunk20_le (l : List String) : ∀ b ∈ chunk20 l, b.length ≤ 20 := by
  intro b hb
  obtain ⟨i, _, rfl⟩ := List.mem_map.mp hb
  simp [List.length_take]

/-- C6: the queued URLs are split into consecutive order-preserving
groups of at most 20; the stage output is the pre-existing documents
followed by each batch's successes in batch order, with all failure
records collected; and a batch whose provider call raises contributes
zero documents and exactly one {url, error} record per URL of that batch
(the exception is caught, so the stage itself never raises — the model
is a total function). -/
theorem c6_batch_partial_failure (pre : List RawDoc) (todo : List String)
    (provider : List String → ProviderResp) :
    (chunk20 todo).flatten = todo ∧
    (∀ b ∈ chunk20 todo, b.length ≤ BATCH_SIZE) ∧
    ((extractRun pre todo provider).1 =
      pre ++ ((chunk20 todo).map fun b => (extractSync provider b).1).flatten) ∧
    ((extractRun pre todo provider).2 =
      ((chunk20 todo).map fun b => (extractSync provider b).2).flatten) ∧
    ∀ b e, provider b = ProviderResp.err e →
      extractSync provider b = ([], b.map fun u => { url := u, error := e }) := by
  refine ⟨chunk20_flatten todo, ?_, ?_, ?_, ?_⟩
  · intro b hb
    simpa [BATCH_SIZE] using chunk20_le todo b hb
  · simp [extractRun, List.map_map, Function.comp_def]
  · simp [extractRun, List.map_map, Function.comp_def]
  · intro b e h
    simp [extractSync, h]

/-- C6 witness: 25 URLs, provider raising exactly on the second batch of
five — the 20 successes of the first batch are returned together with 5
failure records, without raising. -/
theorem c6_witness :
    (extractRun [] c6Urls c6Provider).1.length = 20 ∧
    (extractRun [] c6Urls c6Provider).2 =
      c6Batch2.map (fun u => { url := u, error := "quota exceeded" }) ∧
    extractSync c6Provider c6Batch2 =
      ([], c6Batch2.map fun u => { url := u, error := "quota exceeded" }) := by
  refine ⟨by decide, by decide, ?_⟩
  exact (c6_batch_partial_failure [] c6Urls c6Provider).2.2.2.2 c6Batch2
    "quota exceeded" (by decide)

/-! ### C1 and C3: embedding, cosine similarity, and the draft anchor -/

/-- Every squared norm is nonnegative. -/
theorem sumSq_nonneg (l : List ℚ) : 0 ≤ sumSq l := by
  induction l with
  | nil => simp [sumSq, dot]
  | cons x xs ih =>
      have h : sumSq (x :: xs) = x * x + sumSq xs := rfl
      rw [h]
      nlinarith [mul_self_nonneg x]

/-- A vector of zero norm is orthogonal to everything (left argument). -/
theorem dot_eq_zero_left (a : List ℚ) :
    ∀ v, sumSq a = 0 → dot a v = 0 := by
  induction a with
  | nil => intro v _; simp [dot]
  | cons x as ih =>
      intro v h
      have hx2 : 0 ≤ x * x := mul_self_nonneg x
      have hA : 0 ≤ sumSq as := sumSq_nonneg as
      have h' : x * x + sumSq as = 0 := h
      have hx : x = 0 := mul_self_eq_zero.mp (by nlinarith)
      have hAs : sumSq as = 0 := by nlinarith
      cases v with
      | nil => rfl
      | cons y vs =>
          have : dot (x :: as) (y :: vs) = x * y + dot as vs := rfl
          rw [this, hx, ih vs hAs]
          ring

/-- A vector of zero norm is orthogonal to everything (right argument). -/
theorem dot_eq_zero_right (a : List ℚ) :
    ∀ v, sumSq v = 0 → dot a v = 0 := by
  induction a with
  | nil => intro v _; simp [dot]
  | cons x as ih =>
      intro v h
      cases v with
      | nil => rfl
      | cons y vs =>
          have hy2 : 0 ≤ y * y := mul_self_nonneg y
          have hV : 0 ≤ sumSq vs := sumSq_nonneg vs
          have h' : y * y + sumSq vs = 0 := h
          have hy : y = 0 := mul_self_eq_zero.mp (by nlinarith)
          have hVs : sumSq vs = 0 := by nlinarith
          have hd : dot (x :: as) (y :: vs) = x * y + dot as vs := rfl
          rw [hd, hy, ih vs hVs]
          ring

/-- Cauchy-Schwarz for the list dot product: the squared dot product is
bounded by the product of the squared norms — exactly the statement that
the cosine similarity lies in the closed interval from -1 to 1. -/
theorem dot_sq_le (a : List ℚ) :
    ∀ v, (dot a v) ^ 2 ≤ sumSq a * sumSq v := by
  induction a with
  | nil =>
      intro v
      simp [dot, sumSq]
  | cons x as ih =>
      intro v
      cases v with
      | nil =>
          have h1 : dot (x :: as) ([] : List ℚ) = 0 := rfl
          have h2 : sumSq ([] : List ℚ) = 0 := rfl
          rw [h1, h2]
          simp
      | cons y vs =>
          have IH := ih vs
          have hA := sumSq_nonneg as
          have hV := sumSq_nonneg vs
          have key : (2 * (x * y) * dot as vs) ^ 2 ≤
              (x ^ 2 * sumSq vs + sumSq as * y ^ 2) ^ 2 := by
            nlinarith [sq_nonneg (x ^ 2 * sumSq vs - sumSq as * y ^ 2),
              mul_nonneg (mul_nonneg (sq_nonneg x) (sq_nonneg y))
                (sub_nonneg.mpr IH)]
          have hS : 0 ≤ x ^ 2 * sumSq vs + sumSq as * y ^ 2 :=
            add_nonneg (mul_nonneg (sq_nonneg x) hV)
              (mul_nonneg hA (sq_nonneg y))
          have hT : 2 * (x * y) * dot as vs ≤
              x ^ 2 * sumSq vs + sumSq as * y ^ 2 := by
            nlinarith [key, hS]
          have hd : dot (x :: as) (y :: vs) = x * y + dot as vs := rfl
          have hsa : sumSq (x :: as) = x * x + sumSq as := rfl
          have hsv : sumSq (y :: vs) = y * y + sumSq vs := rfl
          rw [hd, hsa, hsv]
          nlinarith [IH, hT]

/-- The zip loop scores exactly the documents paired with a returned
vector; trailing documents (if the vector list is shorter) are left
untouched. -/
theorem embedAssign_eq (a : List ℚ) :
    ∀ (docs : List RawDocE) (vecs : List (List ℚ)),
      embedAssign (some a) docs vecs =
        ((docs.zip vecs).map fun p =>
          { p.1 with embedding := some p.2,
                     similarity_score := some (cosineSim a p.2) }) ++
          docs.drop vecs.length := by
  intro docs
  induction docs with
  | nil => intro vecs; simp [embedAssign]
  | cons d ds ih =>
      intro vecs
      cases vecs with
      | nil => simp [embedAssign]
      | cons v vs => simp [embedAssign, ih vs]

/-- C1 counterexample: the claim says a zero-norm document vector leaves
the similarity None.  At the concrete anchor [1] and document vector [0]
the code stores some NaN (the unguarded division 0.0/0.0), not None. -/
theorem c1_counterexample :
    embedAssign (some [1]) [{ url := "u", content := "c" }] [[0]] =
      [{ url := "u", content := "c", embedding := some [0],
         similarity_score := some SimScore.nan }] ∧
    some SimScore.nan ≠ (none : Option SimScore) := by
  constructor
  · have h0 : sumSq [(1 : ℚ)] * sumSq [(0 : ℚ)] = 0 := by
      show (1 * 1 + 0) * (0 * 0 + 0) = 0
      norm_num
    simp [embedAssign, cosineSim, h0]
  · simp

/-- C1 amended: whenever a draft anchor exists, every document paired
with a returned vector stores some similarity — the exact value
dot(a, v) / (norm(a) * norm(v)) — never None.  When either vector has
zero norm the stored float is NaN (the division is 0.0/0.0: the dot
product provably vanishes too); when both norms are non-zero the value
is the genuine cosine and its square is at most one, i.e. it lies in
[-1, 1]. -/
theorem c1_similarity_amended (a v : List ℚ) :
    (sumSq a = 0 ∨ sumSq v = 0 →
      cosineSim a v = SimScore.nan ∧ dot a v = 0) ∧
    (sumSq a ≠ 0 → sumSq v ≠ 0 →
      cosineSim a v = SimScore.ratio (dot a v) (sumSq a * sumSq v) ∧
      (dot a v) ^ 2 ≤ sumSq a * sumSq v) ∧
    ∀ (docs : List RawDocE) (vecs : List (List ℚ)),
      embedAssign (some a) docs vecs =
        ((docs.zip vecs).map fun p =>
          { p.1 with embedding := some p.2,
                     similarity_score := some (cosineSim a p.2) }) ++
          docs.drop vecs.length := by
  refine ⟨fun h => ⟨?_, ?_⟩, fun ha hv => ⟨?_, dot_sq_le a v⟩, embedAssign_eq a⟩
  · have : sumSq a * sumSq v = 0 := by
      rcases h with h | h <;> simp [h]
    simp [cosineSim, this]
  · rcases h with h | h
    · exact dot_eq_zero_left a v h
    · exact dot_eq_zero_right a v h
  · have : sumSq a * sumSq v ≠ 0 := mul_ne_zero ha hv
    simp [cosineSim, this]

/-- C1 amended, witness: at the anchor [1, 0] and vector [0, 1] both
norms are one, the stored similarity is the ratio form, and
Cauchy-Schwarz holds concretely. -/
theorem c1_similarity_amended_witness :
    cosineSim [(1 : ℚ), 0] [0, 1] =
      SimScore.ratio (dot [(1 : ℚ), 0] [0, 1])
        (sumSq [(1 : ℚ), 0] * sumSq [0, 1]) ∧
    (dot [(1 : ℚ), 0] [0, 1]) ^ 2 ≤ sumSq [(1 : ℚ), 0] * sumSq [0, 1] :=
  (c1_similarity_amended [1, 0] [0, 1]).2.1
    (by show (1 * 1 + (0 * 0 + 0)) ≠ 0; norm_num)
    (by show (0 * 0 + (1 * 1 + 0)) ≠ 0; norm_num)

/-- C3: the drafter stores the draft under the state key
initial_content (drafter.py:64), but the wired ranking stage
EmbederNode.run reads the key initial_code (embeder.py:52), which no node
ever writes.  On a concrete post-drafter state the embeder therefore
scores every reference document None and gives the draft no embedding,
although the draft exists in the state — contradicting the claim (and
the module's own stated purpose of scoring documents against the
draft). -/
theorem c3_draft_key_mismatch :
    (drafterUpdate c3ExState "draft solution").initial_content =
      some { content := "draft solution" } ∧
    (drafterUpdate c3ExState "draft solution").initial_code = none ∧
    ((embederRun (drafterUpdate c3ExState "draft solution")
        [[1, 2]]).raw_docs.map fun d => d.similarity_score) = [none] ∧
    (embederRun (drafterUpdate c3ExState "draft solution")
        [[1, 2]]).initial_content = some { content := "draft solution" } ∧
    (embederRun (drafterUpdate c3ExState "draft solution")
        [[1, 2]]).initial_code = none := by
  refine ⟨rfl, rfl, ?_, rfl, rfl⟩
  simp [embederRun, drafterUpdate, c3ExState, embedAssign]

/-! ### C5: URL round trip

The chain of lemmas below establishes
toRaw (toBlob (toRaw url)) = toRaw url for every url containing "/blob/"
exactly once: toRaw leaves no "/blob/" behind, inserts a "/raw/", and
toBlob followed by toRaw then restores and re-replaces exactly the same
position. -/

/-- Substring occurrence is existence of an occurrence position. -/
theorem strIn_iff_occCount (pat : List Char) :
    ∀ s, strIn pat s = true ↔ occCount pat s ≠ 0 := by
  intro s
  induction s with
  | nil =>
      rw [strIn, occCount]
      by_cases h : pat.isPrefixOf ([] : List Char) <;> simp [h]
  | cons c t ih =>
      rw [strIn, occCount]
      by_cases h : pat.isPrefixOf (c :: t)
      · simp only [h, Bool.true_or, if_true]
        constructor
        · intro _
          omega
        · intro _
          trivial
      · simp [h, ih]

/-- Occurrence is preserved by consing a character in front. -/
theorem strIn_cons_of (pat : List Char) (c : Char) (t : List Char)
    (h : strIn pat t = true) : strIn pat (c :: t) = true := by
  rw [strIn]
  simp [h]

/-- Occurrence is preserved by prepending any list. -/
theorem strIn_append_right (pat z : List Char) (h : strIn pat z = true) :
    ∀ x : List Char, strIn pat (x ++ z) = true := by
  intro x
  induction x with
  | nil => simpa using h
  | cons c xs ih => simpa [List.cons_append] using strIn_cons_of pat c (xs ++ z) ih

/-- A pattern occurs in itself followed by anything. -/
theorem strIn_self_append (p t : List Char) : strIn p (p ++ t) = true := by
  cases hpt : p ++ t with
  | nil =>
      obtain ⟨hp, ht⟩ := List.append_eq_nil.mp hpt
      subst hp
      simp [strIn]
  | cons c cs =>
      rw [strIn]
      have hpre : p.isPrefixOf (c :: cs) = true :=
        List.isPrefixOf_iff_prefix.mpr ⟨t, hpt⟩
      simp [hpre]

/-- A boolean prefix is an initial segment. -/
theorem eq_append_of_isPrefixOf {pat s : List Char}
    (h : pat.isPrefixOf s = true) : s = pat ++ s.drop pat.length := by
  obtain ⟨t, rfl⟩ := List.isPrefixOf_iff_prefix.mp h
  rw [List.drop_left]

/-- replaceFirst at a position where the pattern is a prefix substitutes
immediately. -/
theorem replaceFirst_head {pat s : List Char} (rep : List Char)
    (h : pat.isPrefixOf s = true) :
    replaceFirst pat rep s = rep ++ s.drop pat.length := by
  cases s with
  | nil =>
      rw [replaceFirst, if_pos h]
      simp
  | cons c t => rw [replaceFirst, if_pos h]

/-- Replacing an occurrence of pat by rep plants an occurrence of rep. -/
theorem strIn_inserted (pat rep : List Char) :
    ∀ s, strIn pat s = true → strIn rep (replaceFirst pat rep s) = true := by
  intro s
  induction s with
  | nil =>
      intro h
      rw [strIn] at h
      rw [replaceFirst, if_pos h]
      simpa using strIn_self_append rep []
  | cons c t ih =>
      intro h
      by_cases hp : pat.isPrefixOf (c :: t)
      · rw [replaceFirst_head rep hp]
        exact strIn_self_append rep _
      · have ht : strIn pat t = true := by
          rw [strIn] at h
          simpa [hp] using h
        simp only [replaceFirst, if_neg hp]
        exact strIn_cons_of rep c _ (ih ht)

/-- Occurrence in a suffix is occurrence in the whole list. -/
theorem strIn_drop (pat : List Char) :
    ∀ (n : Nat) (t : List Char),
      strIn pat (t.drop n) = true → strIn pat t = true := by
  intro n
  induction n with
  | zero => intro t h; simpa using h
  | succ n ih =>
      intro t h
      cases t with
      | nil => simpa using h
      | cons c t' =>
          exact strIn_cons_of pat c t' (ih t' (by simpa using h))

/-- Scanning "/blob/" across the junction of an inserted "/raw/": the
only possible occurrences start at the trailing slash of "/raw/" (when
the tail begins with "blob/") or lie wholly in the tail. -/
theorem strIn_pblob_praw_append (z : List Char) :
    strIn pblob (praw ++ z) =
      ((['b', 'l', 'o', 'b', '/'] : List Char).isPrefixOf z ||
        strIn pblob z) := by
  simp only [praw, List.cons_append, List.nil_append]
  rw [strIn, strIn, strIn, strIn, strIn]
  simp [pblob, List.isPrefixOf_cons₂]

/-- Peel, toBlob direction, base: a leading '/' of the replaced list was
already a leading '/' of the input. -/
theorem jr_slash (t : List Char)
    (h : (['/'] : List Char).isPrefixOf (replaceFirst praw pblob t) = true) :
    (['/'] : List Char).isPrefixOf t = true := by
  cases t with
  | nil => simp [replaceFirst, praw] at h
  | cons c t' =>
      by_cases hp : praw.isPrefixOf (c :: t')
      · have hc : '/' = c := by
          simp only [praw, List.isPrefixOf_cons₂, Bool.and_eq_true,
            beq_iff_eq] at hp
          exact hp.1
        simp only [List.isPrefixOf_cons₂, Bool.and_eq_true, beq_iff_eq]
        exact ⟨hc, by simp⟩
      · simp only [replaceFirst, if_neg hp] at h
        simp only [List.isPrefixOf_cons₂, Bool.and_eq_true, beq_iff_eq] at h ⊢
        exact ⟨h.1, by simp⟩

/-- Peel, toBlob direction, "b/". -/
theorem jr_bslash (t : List Char)
    (h : (['b', '/'] : List Char).isPrefixOf (replaceFirst praw pblob t) = true) :
    (['b', '/'] : List Char).isPrefixOf t = true := by
  cases t with
  | nil => simp [replaceFirst, praw] at h
  | cons c t' =>
      by_cases hp : praw.isPrefixOf (c :: t')
      · rw [replaceFirst_head pblob hp] at h
        simp [pblob, List.isPrefixOf_cons₂] at h
      · simp only [replaceFirst, if_neg hp] at h
        simp only [List.isPrefixOf_cons₂, Bool.and_eq_true, beq_iff_eq] at h ⊢
        exact ⟨h.1, jr_slash t' h.2⟩

/-- Peel, toBlob direction, "ob/". -/
theorem jr_ob (t : List Char)
    (h : (['o', 'b', '/'] : List Char).isPrefixOf (replaceFirst praw pblob t) = true) :
    (['o', 'b', '/'] : List Char).isPrefixOf t = true := by
  cases t with
  | nil => simp [replaceFirst, praw] at h
  | cons c t' =>
      by_cases hp : praw.isPrefixOf (c :: t')
      · rw [replaceFirst_head pblob hp] at h
        simp [pblob, List.isPrefixOf_cons₂] at h
      · simp only [replaceFirst, if_neg hp] at h
        simp only [List.isPrefixOf_cons₂, Bool.and_eq_true, beq_iff_eq] at h ⊢
        exact ⟨h.1, jr_bslash t' h.2⟩

/-- Peel, toBlob direction, "lob/". -/
theorem jr_lob (t : List Char)
    (h : (['l', 'o', 'b', '/'] : List Char).isPrefixOf (replaceFirst praw pblob t) = true) :
    (['l', 'o', 'b', '/'] : List Char).isPrefixOf t = true := by
  cases t with
  | nil => simp [replaceFirst, praw] at h
  | cons c t' =>
      by_cases hp : praw.isPrefixOf (c :: t')
      · rw [replaceFirst_head pblob hp] at h
        simp [pblob, List.isPrefixOf_cons₂] at h
      · simp only [replaceFirst, if_neg hp] at h
        simp only [List.isPrefixOf_cons₂, Bool.and_eq_true, beq_iff_eq] at h ⊢
        exact ⟨h.1, jr_ob t' h.2⟩

/-- Peel, toBlob direction, "blob/": a "blob/" prefix of the replaced
list was already there, since the inserted "/blob/" starts with '/'. -/
theorem jr_blob (t : List Char)
    (h : (['b', 'l', 'o', 'b', '/'] : List Char).isPrefixOf
      (replaceFirst praw pblob t) = true) :
    (['b', 'l', 'o', 'b', '/'] : List Char).isPrefixOf t = true := by
  cases t with
  | nil => simp [replaceFirst, praw] at h
  | cons c t' =>
      by_cases hp : praw.isPrefixOf (c :: t')
      · rw [replaceFirst_head pblob hp] at h
        simp [pblob, List.isPrefixOf_cons₂] at h
      · simp only [replaceFirst, if_neg hp] at h
        simp only [List.isPrefixOf_cons₂, Bool.and_eq_true, beq_iff_eq] at h ⊢
        exact ⟨h.1, jr_lob t' h.2⟩

/-- Peel, toRaw direction, base. -/
theorem jb_slash (t : List Char)
    (h : (['/'] : List Char).isPrefixOf (replaceFirst pblob praw t) = true) :
    (['/'] : List Char).isPrefixOf t = true := by
  cases t with
  | nil => simp [replaceFirst, pblob] at h
  | cons c t' =>
      by_cases hp : pblob.isPrefixOf (c :: t')
      · have hc : '/' = c := by
          simp only [pblob, List.isPrefixOf_cons₂, Bool.and_eq_true,
            beq_iff_eq] at hp
          exact hp.1
        simp only [List.isPrefixOf_cons₂, Bool.and_eq_true, beq_iff_eq]
        exact ⟨hc, by simp⟩
      · simp only [replaceFirst, if_neg hp] at h
        simp only [List.isPrefixOf_cons₂, Bool.and_eq_true, beq_iff_eq] at h ⊢
        exact ⟨h.1, by simp⟩

/-- Peel, toRaw direction, "b/". -/
theorem jb_bslash (t : List Char)
    (h : (['b', '/'] : List Char).isPrefixOf (replaceFirst pblob praw t) = true) :
    (['b', '/'] : List Char).isPrefixOf t = true := by
  cases t with
  | nil => simp [replaceFirst, pblob] at h
  | cons c t' =>
      by_cases hp : pblob.isPrefixOf (c :: t')
      · rw [replaceFirst_head praw hp] at h
        simp [praw, List.isPrefixOf_cons₂] at h
      · simp only [replaceFirst, if_neg hp] at h
        simp only [List.isPrefixOf_cons₂, Bool.and_eq_true, beq_iff_eq] at h ⊢
        exact ⟨h.1, jb_slash t' h.2⟩

/-- Peel, toRaw direction, "ob/". -/
theorem jb_ob (t : List Char)
    (h : (['o', 'b', '/'] : List Char).isPrefixOf (replaceFirst pblob praw t) = true) :
    (['o', 'b', '/'] : List Char).isPrefixOf t = true := by
  cases t with
  | nil => simp [replaceFirst, pblob] at h
  | cons c t' =>
      by_cases hp : pblob.isPrefixOf (c :: t')
      · rw [replaceFirst_head praw hp] at h
        simp [praw, List.isPrefixOf_cons₂] at h
      · simp only [replaceFirst, if_neg hp] at h
        simp only [List.isPrefixOf_cons₂, Bool.and_eq_true, beq_iff_eq] at h ⊢
        exact ⟨h.1, jb_bslash t' h.2⟩

/-- Peel, toRaw direction, "lob/". -/
theorem jb_lob (t : List Char)
    (h : (['l', 'o', 'b', '/'] : List Char).isPrefixOf (replaceFirst pblob praw t) = true) :
    (['l', 'o', 'b', '/'] : List Char).isPrefixOf t = true := by
  cases t with
  | nil => simp [replaceFirst, pblob] at h
  | cons c t' =>
      by_cases hp : pblob.isPrefixOf (c :: t')
      · rw [replaceFirst_head praw hp] at h
        simp [praw, List.isPrefixOf_cons₂] at h
      · simp only [replaceFirst, if_neg hp] at h
        simp only [List.isPrefixOf_cons₂, Bool.and_eq_true, beq_iff_eq] at h ⊢
        exact ⟨h.1, jb_ob t' h.2⟩

/-- Peel, toRaw direction, "blob/". -/
theorem jb_blob (t : List Char)
    (h : (['b', 'l', 'o', 'b', '/'] : List Char).isPrefixOf
      (replaceFirst pblob praw t) = true) :
    (['b', 'l', 'o', 'b', '/'] : List Char).isPrefixOf t = true := by
  cases t with
  | nil => simp [replaceFirst, pblob] at h
  | cons c t' =>
      by_cases hp : pblob.isPrefixOf (c :: t')
      · rw [replaceFirst_head praw hp] at h
        simp [praw, List.isPrefixOf_cons₂] at h
      · simp only [replaceFirst, if_neg hp] at h
        simp only [List.isPrefixOf_cons₂, Bool.and_eq_true, beq_iff_eq] at h ⊢
        exact ⟨h.1, jb_lob t' h.2⟩

/-- After toRaw replaces the unique "/blob/", none remains. -/
theorem replaceFirst_no_pblob :
    ∀ s, occCount pblob s = 1 →
      strIn pblob (replaceFirst pblob praw s) = false := by
  intro s
  induction s with
  | nil =>
      intro h
      rw [occCount] at h
      simp [pblob] at h
  | cons c t ih =>
      intro h
      by_cases hp : pblob.isPrefixOf (c :: t)
      · rw [replaceFirst_head praw hp]
        have hocc : occCount pblob t = 0 := by
          rw [occCount, if_pos hp] at h
          omega
        have hstr_t : strIn pblob t = false := by
          rw [Bool.eq_false_iff]
          exact fun hc => (strIn_iff_occCount pblob t).mp hc
            (by rw [occCount] at h; omega)
        have hdec : c :: t = pblob ++ (c :: t).drop pblob.length :=
          eq_append_of_isPrefixOf hp
        have hz : (c :: t).drop pblob.length = t.drop 5 := by
          simp [pblob]
        rw [hz] at hdec ⊢
        rw [strIn_pblob_praw_append]
        have hz_no : strIn pblob (t.drop 5) = false := by
          rw [Bool.eq_false_iff]
          intro hc
          have hct := strIn_drop pblob 5 t hc
          rw [hct] at hstr_t
          cases hstr_t
        have hbl_no : (['b', 'l', 'o', 'b', '/'] : List Char).isPrefixOf
            (t.drop 5) = false := by
          rw [Bool.eq_false_iff]
          intro hbz
          have ht : t = ['b', 'l', 'o', 'b', '/'] ++ t.drop 5 := by
            have := congrArg List.tail hdec
            simpa [pblob] using this
          have ht2 : t = ['b', 'l', 'o', 'b'] ++ (pblob ++ (t.drop 5).drop 5) := by
            rw [ht, eq_append_of_isPrefixOf hbz]
            rfl
          have : strIn pblob t = true := by
            rw [ht2]
            exact strIn_append_right pblob _
              (strIn_self_append pblob _) _
          rw [this] at hstr_t
          cases hstr_t
        rw [hz_no, hbl_no]
        rfl
      · have hocc : occCount pblob t = 1 := by
          rw [occCount, if_neg hp] at h
          omega
        have hu := ih hocc
        simp only [replaceFirst, if_neg hp]
        rw [strIn]
        have hpre : pblob.isPrefixOf
            (c :: replaceFirst pblob praw t) = false := by
          rw [Bool.eq_false_iff]
          intro hcc
          simp only [pblob, List.isPrefixOf_cons₂, Bool.and_eq_true,
            beq_iff_eq] at hcc
          obtain ⟨hc, hbl⟩ := hcc
          have hblt := jb_blob t hbl
          apply hp
          simp only [pblob, List.isPrefixOf_cons₂, Bool.and_eq_true,
            beq_iff_eq]
          exact ⟨hc, hblt⟩
        rw [hpre, hu]
        rfl

/-- toRaw undoes toBlob on any list with a "/raw/" but no "/blob/". -/
theorem replaceFirst_round_trip :
    ∀ r, strIn pblob r = false → strIn praw r = true →
      replaceFirst pblob praw (replaceFirst praw pblob r) = r := by
  intro r
  induction r with
  | nil =>
      intro _ h2
      rw [strIn] at h2
      simp [praw] at h2
  | cons c t ih =>
      intro h1 h2
      by_cases hp : praw.isPrefixOf (c :: t)
      · rw [replaceFirst_head pblob hp]
        have hpre : pblob.isPrefixOf
            (pblob ++ (c :: t).drop praw.length) = true :=
          List.isPrefixOf_iff_prefix.mpr ⟨_, rfl⟩
        rw [replaceFirst_head praw hpre, List.drop_left]
        exact (eq_append_of_isPrefixOf hp).symm
      · have h2t : strIn praw t = true := by
          rw [strIn] at h2
          simpa [hp] using h2
        have h1t : strIn pblob t = false := by
          rw [strIn] at h1
          exact (Bool.or_eq_false_iff.mp h1).2
        have h1p : pblob.isPrefixOf (c :: t) = false :=
          (Bool.or_eq_false_iff.mp (by rw [strIn] at h1; exact h1)).1
        simp only [replaceFirst, if_neg hp]
        have hnp : pblob.isPrefixOf
            (c :: replaceFirst praw pblob t) = false := by
          rw [Bool.eq_false_iff]
          intro hcc
          simp only [pblob, List.isPrefixOf_cons₂, Bool.and_eq_true,
            beq_iff_eq] at hcc
          obtain ⟨hc, hbl⟩ := hcc
          have hblt := jr_blob t hbl
          have : pblob.isPrefixOf (c :: t) = true := by
            simp only [pblob, List.isPrefixOf_cons₂, Bool.and_eq_true,
              beq_iff_eq]
            exact ⟨hc, hblt⟩
          rw [this] at h1p
          cases h1p
        rw [if_neg (Bool.eq_false_iff.mp hnp), ih h1t h2t]

/-- C5: for every URL containing the replaceable token "/blob/" exactly
once, toRaw (toBlob (toRaw url)) = toRaw url. -/
theorem c5_url_round_trip (url : String) (h : occCount pblob url.data = 1) :
    blob_to_raw (raw_to_blob (blob_to_raw url)) = blob_to_raw url := by
  have h1 : strIn pblob url.data = true :=
    (strIn_iff_occCount pblob url.data).mpr (by omega)
  have hb : blob_to_raw url = String.mk (replaceFirst pblob praw url.data) := by
    rw [blob_to_raw, if_pos h1]
  have h2 : strIn pblob (replaceFirst pblob praw url.data) = false :=
    replaceFirst_no_pblob url.data h
  have h3 : strIn praw (replaceFirst pblob praw url.data) = true :=
    strIn_inserted pblob praw url.data h1
  rw [hb]
  rw [raw_to_blob]
  rw [show (String.mk (replaceFirst pblob praw url.data)).data =
    replaceFirst pblob praw url.data from rfl]
  rw [if_pos h3]
  rw [blob_to_raw]
  rw [show (String.mk (replaceFirst praw pblob
      (replaceFirst pblob praw url.data))).data =
    replaceFirst praw pblob (replaceFirst pblob praw url.data) from rfl]
  rw [if_pos (strIn_inserted praw pblob _ h3)]
  rw [replaceFirst_round_trip _ h2 h3]

/-- C5 witness: a concrete GitHub blob URL containing the token exactly
once round-trips. -/
theorem c5_witness :
    occCount pblob c5ExUrl.data = 1 ∧
    blob_to_raw (raw_to_blob (blob_to_raw c5ExUrl)) = blob_to_raw c5ExUrl :=
  ⟨by decide, c5_url_round_trip c5ExUrl (by decide)⟩

end RagPipeline
